import Mathlib

/-!
Verification of the Exam_Rust download manager against its design spec.

Strings are embedded as `List Char`.  Progress values are embedded as exact
rationals: the Rust code stores them in `f32` and only compares, assigns and
divides by 100, so every comparison the claims exercise is exact; `ℚ` keeps
those comparisons exact while staying computable.
-/

namespace Exam

/-- Rust `char::is_whitespace`, restricted to the ASCII whitespace the
progress lines can contain. -/
def isSpaceChar (c : Char) : Bool :=
  (c = ' ') || (c = '\t') || (c = '\n') || (c = '\r')

/-- Rust `str::trim_start`: drop leading whitespace. -/
def trimLeft (s : List Char) : List Char := s.dropWhile isSpaceChar

/-- Rust `str::trim_end`: drop trailing whitespace. -/
def trimRight (s : List Char) : List Char := (s.reverse.dropWhile isSpaceChar).reverse

/-- Rust `str::trim`. -/
def rustTrim (s : List Char) : List Char := trimRight (trimLeft s)

/-- Rust `str::strip_prefix`, on character lists. -/
def stripPre : List Char → List Char → Option (List Char)
  | [], s => some s
  | _ :: _, [] => none
  | p :: ps, c :: cs => if c = p then stripPre ps cs else none

/-- Rust `str::strip_suffix` with a one-character pattern. -/
def stripSuffChar (ch : Char) (s : List Char) : Option (List Char) :=
  match s.reverse with
  | [] => none
  | c :: rest => if c = ch then some rest.reverse else none

/-- Numeric value of a digit string (most significant digit first). -/
def digitsVal (ds : List Char) : Nat := ds.foldl (fun a c => 10 * a + (c.toNat - 48)) 0

/-- Exponent digits of a float literal: the whole remaining input must be a
nonempty digit run; yields the scale factor `10 ^ e`. -/
def parseExpDigits (s : List Char) : Option ℚ :=
  if s.takeWhile Char.isDigit = [] then none
  else if s.dropWhile Char.isDigit = [] then
    some ((10 : ℚ) ^ digitsVal (s.takeWhile Char.isDigit))
  else none

/-- Signed exponent part of a float literal (after the `e`/`E`). -/
def parseExpPart : List Char → Option ℚ
  | [] => none
  | c :: r =>
    if c = '+' then parseExpDigits r
    else if c = '-' then (parseExpDigits r).map (fun e => e⁻¹)
    else parseExpDigits (c :: r)

/-- After the mantissa of a float literal: end of input or an exponent. -/
def parseAfterFrac (mant : ℚ) : List Char → Option ℚ
  | [] => some mant
  | c :: s5 =>
    if c = 'e' ∨ c = 'E' then (parseExpPart s5).map (fun ex => mant * ex)
    else none

/-- After the integer digits of a float literal: end of input, a fractional
part, or an exponent.  `ipE` records whether the integer part was empty. -/
def parseAfterInt (ipE : Bool) (ipV : ℚ) : List Char → Option ℚ
  | [] => if ipE = true then none else some ipV
  | c :: s3 =>
    if c = '.' then
      if ipE = true ∧ s3.takeWhile Char.isDigit = [] then none
      else
        parseAfterFrac
          (ipV + (digitsVal (s3.takeWhile Char.isDigit) : ℚ)
              / (10 : ℚ) ^ (s3.takeWhile Char.isDigit).length)
          (s3.dropWhile Char.isDigit)
    else if (c = 'e' ∨ c = 'E') ∧ ipE = false then
      (parseExpPart s3).map (fun ex => ipV * ex)
    else none

/-- Unsigned part of a float literal. -/
def parseUnsigned (s : List Char) : Option ℚ :=
  parseAfterInt (s.takeWhile Char.isDigit).isEmpty
    ((digitsVal (s.takeWhile Char.isDigit) : ℚ)) (s.dropWhile Char.isDigit)

/-- Rust `str::parse::<f32>`, modelled over exact rationals: the grammar of
finite decimal literals (optional sign, digits with optional fraction and
exponent), with the resulting value kept exact instead of rounded to `f32`;
the special forms `inf`/`NaN` are treated as non-numeric. -/
def parseF32 : List Char → Option ℚ
  | [] => none
  | c :: r =>
    if c = '+' then parseUnsigned r
    else if c = '-' then (parseUnsigned r).map (fun q => -q)
    else parseUnsigned (c :: r)

namespace Progress

/-- `parse_progress_from_line` from `src/progress.rs`: strip the
`downloaded_bytes:` marker, trim, strip the trailing percent sign, trim and
parse the number, and divide by 100. -/
def parse_progress_from_line (line : List Char) : Option ℚ :=
  match stripPre ("downloaded_bytes:".toList) line with
  | some rest =>
    match stripSuffChar '%' (rustTrim rest) with
    | some number =>
      match parseF32 (rustTrim number) with
      | some v => some (v / 100)
      | none => none
    | none => none
  | none => none

end Progress

namespace MainSrc

/-- The private `parse_progress_from_line` copy in `src/main.rs` (textually
identical to the one in `src/progress.rs`). -/
def parse_progress_from_line (line : List Char) : Option ℚ :=
  match stripPre ("downloaded_bytes:".toList) line with
  | some rest =>
    match stripSuffChar '%' (rustTrim rest) with
    | some number =>
      match parseF32 (rustTrim number) with
      | some v => some (v / 100)
      | none => none
    | none => none
  | none => none

end MainSrc

/-! ## Task registry (`src/main.rs`) -/

/-- `DownloadStatus` from `src/main.rs`. -/
inductive DownloadStatus
  | Downloading
  | Done
deriving DecidableEq

/-- `DownloadTask` from `src/main.rs` (progress as an exact rational). -/
structure DownloadTask where
  title : List Char
  video_id : List Char
  status : DownloadStatus
  progress : ℚ
deriving DecidableEq

/-- The body of the per-value update in `MyApp::update`: `if prog >
task.progress { task.progress = prog; if task.progress >= 1.0 { task.status
= Done } }`. -/
def applyToTask (prog : ℚ) (t : DownloadTask) : DownloadTask :=
  if t.progress < prog then
    { t with progress := prog,
             status := if 1 ≤ prog then DownloadStatus.Done else t.status }
  else t

/-- `self.downloads.iter_mut().find(|t| &t.video_id == id)` followed by the
mutation: only the first task with the given id is updated. -/
def updateFirst (id : List Char) (prog : ℚ) : List DownloadTask → List DownloadTask
  | [] => []
  | t :: ts =>
    if t.video_id = id then applyToTask prog t :: ts
    else t :: updateFirst id prog ts

/-- `self.downloads.iter_mut().find(|t| &t.video_id == id)` itself. -/
def findTask (id : List Char) : List DownloadTask → Option DownloadTask
  | [] => none
  | t :: ts => if t.video_id = id then some t else findTask id ts

/-- Draining one channel: the `while let Ok(prog) = rx.try_recv()` loop. -/
def applySeq (id : List Char) (vals : List ℚ) (ds : List DownloadTask) : List DownloadTask :=
  vals.foldl (fun acc v => updateFirst id v acc) ds

/-- The `MyApp` state, restricted to the fields the claims are about.  The
two `spawned` logs record the side effects `RUNTIME.spawn(spawn_download …)`
and the thumbnail `spawn_blocking`. -/
structure MyApp where
  url_input : List Char
  downloads : List DownloadTask
  progress_rxs : List (List Char × List ℚ)
  spawned_downloads : List (List Char)
  spawned_thumbnails : List (List Char)
deriving DecidableEq

/-- `HashMap::insert`: replaces the value of an existing key, else appends. -/
def mapInsert (k : List Char) (v : List ℚ) :
    List (List Char × List ℚ) → List (List Char × List ℚ)
  | [] => [(k, v)]
  | kv :: rest => if kv.1 = k then (k, v) :: rest else kv :: mapInsert k v rest

/-- `HashMap::remove`. -/
def mapErase (k : List Char) :
    List (List Char × List ℚ) → List (List Char × List ℚ)
  | [] => []
  | kv :: rest => if kv.1 = k then rest else kv :: mapErase k rest

/-- `HashMap::get`. -/
def mapLookup (k : List Char) : List (List Char × List ℚ) → Option (List ℚ)
  | [] => none
  | kv :: rest => if kv.1 = k then some kv.2 else mapLookup k rest

/-- `extract_video_id` from `src/main.rs`:
`url.split("v=").nth(1).and_then(|s| s.split('&').next())`.  The second
element of the split is the text between the first occurrence of `v=` and
the following occurrence (or the end), and `.split('&').next()` keeps the
part before the first `&`. -/
def hasPre : List Char → List Char → Bool
  | [], _ => true
  | _ :: _, [] => false
  | p :: ps, c :: cs => (c = p) && hasPre ps cs

/-- Index of the first occurrence of `pat` in `s` (used to embed
`str::split` at the two places the code needs it). -/
def findSub (pat : List Char) : List Char → Option Nat
  | [] => if hasPre pat [] then some 0 else none
  | c :: cs =>
    if hasPre pat (c :: cs) then some 0
    else (findSub pat cs).map (fun i => i + 1)

def extract_video_id (url : List Char) : Option (List Char) :=
  match findSub (['v', '=']) url with
  | none => none
  | some i =>
    let rest := url.drop (i + 2)
    let seg :=
      match findSub (['v', '=']) rest with
      | none => rest
      | some j => rest.take j
    some (seg.takeWhile (fun c => !(c = '&')))

/-- The `Download` button handler in `MyApp::update` (lines 223–271): trim
the input, extract the video id; on success push a new task with
`status=Downloading, progress=0.0`, spawn the thumbnail fetch, create a
fresh channel for the id, and spawn the download; on failure do nothing.
Either way the input field is cleared. -/
def submit (st : MyApp) : MyApp :=
  match extract_video_id (rustTrim st.url_input) with
  | some video_id =>
    { st with
      downloads := st.downloads ++
        [{ title := ("Video ID: ".toList) ++ video_id
         , video_id := video_id
         , status := DownloadStatus.Downloading
         , progress := 0 }]
      , spawned_thumbnails := st.spawned_thumbnails ++ [video_id]
      , progress_rxs := mapInsert video_id [] st.progress_rxs
      , spawned_downloads := st.spawned_downloads ++ [video_id]
      , url_input := [] }
  | none => { st with url_input := [] }

/-- The removal block in `MyApp::update` (lines 186–191):
`self.downloads.retain(|t| !to_remove.contains(&t.video_id))` followed by
`self.progress_rxs.remove(&id)` for each collected id. -/
def removeTasks (to_remove : List (List Char)) (st : MyApp) : MyApp :=
  if to_remove.isEmpty then st
  else
    { st with
      downloads := st.downloads.filter (fun t => !(decide (t.video_id ∈ to_remove)))
      , progress_rxs := to_remove.foldl (fun m id => mapErase id m) st.progress_rxs }

/-! ## Download process runner (`src/downloader.rs`) -/

/-- The `match quality.as_str()` table inside `spawn_download`. -/
def qualityHeightToken (quality : List Char) : List Char :=
  if quality = ("1080p".toList) then ("1080".toList)
  else if quality = ("720p".toList) then ("720".toList)
  else if quality = ("480p".toList) then ("480".toList)
  else if quality = ("360p".toList) then ("360".toList)
  else if quality = ("Audio Only".toList) then ("bestaudio".toList)
  else ("best".toList)

/-- The `-f` argument built by `spawn_download`:
`format!("best[height<=…]", …)` — every selector, including `Audio Only`,
is interpolated into the `best[height<=…]` wrapper. -/
def formatSelection (quality : List Char) : List Char :=
  ("best[height<=".toList) ++ qualityHeightToken quality ++ ("]".toList)

/-- Filesystem state relevant to the yt-dlp materialization: whether the
binary is present at the temp path, and how many write operations have been
performed against it. -/
structure FsState where
  binPresent : Bool
  writeCount : Nat
deriving DecidableEq

/-- One invocation of the ensure-executable step, split at its two atomic
filesystem actions (`tmp.exists()`, then `File::create` + `write_all`):
`pc = 0` before the exists check, `pc = 1` before the conditional write,
`pc = 2` done. -/
structure EnsureProc where
  pc : Nat
  sawAbsent : Bool
deriving DecidableEq

/-- Small-step semantics of one invocation against the filesystem. -/
def ensureStep (fs : FsState) (p : EnsureProc) : FsState × EnsureProc :=
  if p.pc = 0 then (fs, { pc := 1, sawAbsent := !fs.binPresent })
  else if p.pc = 1 then
    if p.sawAbsent then
      ({ binPresent := true, writeCount := fs.writeCount + 1 }, { p with pc := 2 })
    else (fs, { p with pc := 2 })
  else (fs, p)

/-- Two concurrent invocations. -/
structure TwoProcState where
  fs : FsState
  a : EnsureProc
  b : EnsureProc
deriving DecidableEq

/-- Run one step of the scheduled invocation (`true` = A, `false` = B). -/
def schedStep (s : TwoProcState) (who : Bool) : TwoProcState :=
  if who then
    let r := ensureStep s.fs s.a
    { s with fs := r.1, a := r.2 }
  else
    let r := ensureStep s.fs s.b
    { s with fs := r.1, b := r.2 }

def runSched (init : TwoProcState) (sched : List Bool) : TwoProcState :=
  sched.foldl schedStep init

/-- Both invocations poised to run against an initially absent binary. -/
def initTwoProc : TwoProcState :=
  { fs := { binPresent := false, writeCount := 0 }
  , a := { pc := 0, sawAbsent := false }
  , b := { pc := 0, sawAbsent := false } }

/-- One full (uninterleaved) invocation of the ensure-executable step. -/
def ensureRun (fs : FsState) : FsState :=
  let r1 := ensureStep fs { pc := 0, sawAbsent := false }
  (ensureStep r1.1 r1.2).1

/-! ## Helper lemmas about the registry update -/

theorem applyToTask_video_id (v : ℚ) (t : DownloadTask) :
    (applyToTask v t).video_id = t.video_id := by
  unfold applyToTask
  split <;> rfl

theorem applyToTask_progress_le (v : ℚ) (t : DownloadTask) :
    t.progress ≤ (applyToTask v t).progress := by
  unfold applyToTask
  split
  · exact le_of_lt (by assumption)
  · exact le_rfl

theorem applyToTask_stale (v : ℚ) (t : DownloadTask) (h : v ≤ t.progress) :
    applyToTask v t = t := by
  unfold applyToTask
  rw [if_neg (not_lt.mpr h)]

theorem findTask_updateFirst (id : List Char) (v : ℚ) (ds : List DownloadTask)
    (t : DownloadTask) (hf : findTask id ds = some t) :
    findTask id (updateFirst id v ds) = some (applyToTask v t) := by
  induction ds with
  | nil => simp [findTask] at hf
  | cons u us ih =>
    by_cases hu : u.video_id = id
    · simp only [findTask, if_pos hu, Option.some.injEq] at hf
      subst hf
      simp [updateFirst, hu, findTask, applyToTask_video_id]
    · simp only [findTask, if_neg hu] at hf
      simp [updateFirst, hu, findTask, ih hf]

/-- Claim C1 (amended): when the incoming value `v` exceeds the found task's
current progress and `v ≥ 1`, the per-channel update loop sets the task's
status to `Done` and stores `progress = v` unchanged (no clamping). -/
theorem updateFirst_done (ds : List DownloadTask) (id : List Char) (v : ℚ)
    (t : DownloadTask) (hf : findTask id ds = some t)
    (hlt : t.progress < v) (h1 : 1 ≤ v) :
    findTask id (updateFirst id v ds)
      = some { t with progress := v, status := DownloadStatus.Done } := by
  rw [findTask_updateFirst id v ds t hf]
  unfold applyToTask
  rw [if_pos hlt, if_pos h1]

theorem updateFirst_done_witness :
    findTask ("abc".toList)
      (updateFirst ("abc".toList) (12 / 10)
        [{ title := ("T".toList), video_id := ("abc".toList),
           status := DownloadStatus.Downloading, progress := 0 }])
      = some { title := ("T".toList), video_id := ("abc".toList),
               status := DownloadStatus.Done, progress := 12 / 10 } :=
  updateFirst_done
    [{ title := ("T".toList), video_id := ("abc".toList),
       status := DownloadStatus.Downloading, progress := 0 }]
    ("abc".toList) (12 / 10)
    { title := ("T".toList), video_id := ("abc".toList),
      status := DownloadStatus.Downloading, progress := 0 }
    (by decide) (by with_unfolding_all decide) (by with_unfolding_all decide)

/-- Claim C1 counterexample: the code does not clamp — applying `1.2` to a
fresh task leaves its progress field at `1.2`, not `1.0`. -/
theorem clamp_cex :
    (updateFirst ("abc".toList) (12 / 10)
      [{ title := ("T".toList), video_id := ("abc".toList),
         status := DownloadStatus.Downloading, progress := 0 }]).map
      (fun t => t.progress) = [(12 : ℚ) / 10]
    ∧ ((12 : ℚ) / 10 ≠ 1) := by
  exact ⟨by with_unfolding_all decide, by with_unfolding_all decide⟩

theorem chain_applyToTask (vs : List ℚ) : ∀ t : DownloadTask,
    List.Chain' (fun a b => a ≤ b)
      ((vs.scanl (fun u v => applyToTask v u) t).map (fun u => u.progress)) := by
  induction vs with
  | nil => intro t; simp [List.scanl]
  | cons v vs ih =>
    intro t
    rw [List.scanl_cons]
    simp only [List.singleton_append, List.map_cons]
    cases vs with
    | nil =>
      rw [List.scanl_nil]
      simp only [List.map_cons, List.map_nil]
      exact List.chain'_pair.mpr (applyToTask_progress_le v t)
    | cons v2 vs2 =>
      rw [List.scanl_cons]
      simp only [List.singleton_append, List.map_cons]
      refine List.chain'_cons.mpr ⟨applyToTask_progress_le v t, ?_⟩
      have h2 := ih (applyToTask v t)
      rw [List.scanl_cons] at h2
      simp only [List.singleton_append, List.map_cons] at h2
      exact h2

/-- Claim C2: observing the registry through `findTask` over any update
sequence addressed to the task gives exactly the task-level trace; that
trace is non-decreasing in progress; and a stale value (not above the
current progress) leaves the task unchanged. -/
theorem progress_monotone (ds : List DownloadTask) (id : List Char)
    (t : DownloadTask) (vs : List ℚ) (hf : findTask id ds = some t) :
    (vs.scanl (fun acc v => updateFirst id v acc) ds).map (fun d => findTask id d)
        = (vs.scanl (fun u v => applyToTask v u) t).map (fun u => some u)
    ∧ List.Chain' (fun a b => a ≤ b)
        ((vs.scanl (fun u v => applyToTask v u) t).map (fun u => u.progress))
    ∧ (∀ v, v ≤ t.progress → applyToTask v t = t) := by
  refine ⟨?_, ?_, fun v hv => applyToTask_stale v t hv⟩
  · induction vs generalizing ds t with
    | nil => simp [List.scanl, hf]
    | cons v vs ih =>
      rw [List.scanl_cons, List.scanl_cons]
      simp only [List.singleton_append, List.map_cons]
      rw [hf, ih _ _ (findTask_updateFirst id v ds t hf)]
  · exact chain_applyToTask vs t

theorem progress_monotone_witness :
    ((([(3 : ℚ)/10, 1/10, 1/2].scanl (fun u v => applyToTask v u)
        { title := ("T".toList), video_id := ("abc".toList),
          status := DownloadStatus.Downloading, progress := 0 }).map
        (fun u => u.progress)) = [0, 3/10, 3/10, 1/2])
    ∧ List.Chain' (fun a b => a ≤ b) [(0 : ℚ), 3/10, 3/10, 1/2] := by
  have h := progress_monotone
    [{ title := ("T".toList), video_id := ("abc".toList),
       status := DownloadStatus.Downloading, progress := 0 }]
    ("abc".toList)
    { title := ("T".toList), video_id := ("abc".toList),
      status := DownloadStatus.Downloading, progress := 0 }
    [(3 : ℚ)/10, 1/10, 1/2] (by decide)
  have e : (([(3 : ℚ)/10, 1/10, 1/2].scanl (fun u v => applyToTask v u)
      { title := ("T".toList), video_id := ("abc".toList),
        status := DownloadStatus.Downloading, progress := 0 }).map
      (fun u => u.progress)) = [0, 3/10, 3/10, 1/2] := by
    with_unfolding_all decide
  exact ⟨e, e ▸ h.2.1⟩

theorem updateFirst_filter_other (a b : List Char) (v : ℚ) (hab : a ≠ b)
    (ds : List DownloadTask) :
    List.filter (fun t => decide (t.video_id = b)) (updateFirst a v ds)
      = List.filter (fun t => decide (t.video_id = b)) ds := by
  induction ds with
  | nil => rfl
  | cons t ts ih =>
    by_cases ht : t.video_id = a
    · have hb : ¬ t.video_id = b := fun h => hab (ht.symm.trans h)
      simp [updateFirst, ht, List.filter_cons, applyToTask_video_id, hb, hab]
    · simp [updateFirst, ht, List.filter_cons, ih]

/-- Claim C7: any sequence of updates addressed to ids other than `b`
leaves the tasks whose id is `b` (their progress and status included)
exactly as they were. -/
theorem task_isolation (updates : List (List Char × ℚ)) (ds : List DownloadTask)
    (b : List Char) (hb : ∀ u ∈ updates, u.1 ≠ b) :
    List.filter (fun t => decide (t.video_id = b))
        (updates.foldl (fun acc u => updateFirst u.1 u.2 acc) ds)
      = List.filter (fun t => decide (t.video_id = b)) ds := by
  induction updates generalizing ds with
  | nil => rfl
  | cons u us ih =>
    rw [List.foldl_cons, ih _ (fun w hw => hb w (List.mem_cons_of_mem u hw))]
    exact updateFirst_filter_other u.1 b u.2 (hb u (List.mem_cons_self u us)) ds

theorem task_isolation_witness :
    List.filter (fun t => decide (t.video_id = ("b".toList)))
        ([(("a".toList), (3 : ℚ)/10), (("a".toList), (9 : ℚ)/10)].foldl
          (fun acc u => updateFirst u.1 u.2 acc)
          [{ title := ("A".toList), video_id := ("a".toList),
             status := DownloadStatus.Downloading, progress := 0 },
           { title := ("B".toList), video_id := ("b".toList),
             status := DownloadStatus.Downloading, progress := 0 }])
      = List.filter (fun t => decide (t.video_id = ("b".toList)))
          [{ title := ("A".toList), video_id := ("a".toList),
             status := DownloadStatus.Downloading, progress := 0 },
           { title := ("B".toList), video_id := ("b".toList),
             status := DownloadStatus.Downloading, progress := 0 }] :=
  task_isolation _ _ _ (by decide)

/-- Claim C9: the `parse_progress_from_line` in `src/progress.rs` and the
private copy in `src/main.rs` compute the same function. -/
theorem parser_copies_agree : ∀ l : List Char,
    MainSrc.parse_progress_from_line l = Progress.parse_progress_from_line l :=
  fun _ => rfl

/-- Claim C4 (code bug): every selector is interpolated into the
`best[height<=…]` wrapper, so `Audio Only` resolves to
`best[height<=bestaudio]` rather than a best-audio-only expression, and an
unknown selector resolves to `best[height<=best]` rather than plain
best-available.  Only the height-capped selectors match the table. -/
theorem audio_only_format_bug :
    formatSelection ("Audio Only".toList) = ("best[height<=bestaudio]".toList)
    ∧ formatSelection ("anything else".toList) = ("best[height<=best]".toList)
    ∧ formatSelection ("720p".toList) = ("best[height<=720]".toList) :=
  ⟨by decide, by decide, by decide⟩

/-! ## Insertion (C5) -/

/-- Claim C5 counterexample: submitting the same URL twice appends a second
task with the same id, so the registry ids are not pairwise distinct. -/
theorem insert_duplicate_cex :
    ((submit
        { (submit { url_input := ("v=abc".toList), downloads := [], progress_rxs := [],
                    spawned_downloads := [], spawned_thumbnails := [] })
          with url_input := ("v=abc".toList) }).downloads.map
        (fun t => t.video_id) = [("abc".toList), ("abc".toList)])
    ∧ ¬ ((submit
        { (submit { url_input := ("v=abc".toList), downloads := [], progress_rxs := [],
                    spawned_downloads := [], spawned_thumbnails := [] })
          with url_input := ("v=abc".toList) }).downloads.map
        (fun t => t.video_id)).Nodup :=
  ⟨by decide, by decide⟩

/-- Claim C5 (amended): an accepted submission appends a new task with
`status = Downloading` and `progress = 0.0` unconditionally — an existing
task with the same id is not detected (only that id's channel entry is
replaced in the map), so duplicate ids can occur in the registry. -/
theorem submit_appends (st : MyApp) (id : List Char)
    (h : extract_video_id (rustTrim st.url_input) = some id) :
    (submit st).downloads
      = st.downloads ++
        [{ title := ("Video ID: ".toList) ++ id, video_id := id,
           status := DownloadStatus.Downloading, progress := 0 }]
    ∧ (submit st).progress_rxs = mapInsert id [] st.progress_rxs
    ∧ (submit st).spawned_downloads = st.spawned_downloads ++ [id] := by
  refine ⟨?_, ?_, ?_⟩ <;> simp [submit, h]

theorem submit_appends_witness :
    (submit { url_input := ("v=abc".toList), downloads := [], progress_rxs := [],
              spawned_downloads := [], spawned_thumbnails := [] }).downloads
      = [{ title := ("Video ID: abc".toList), video_id := ("abc".toList),
           status := DownloadStatus.Downloading, progress := 0 }] := by
  have h := submit_appends
    { url_input := ("v=abc".toList), downloads := [], progress_rxs := [],
      spawned_downloads := [], spawned_thumbnails := [] }
    ("abc".toList) (by decide)
  rw [h.1]
  decide

/-! ## Removal (C6) -/

theorem mapLookup_eq_none_iff (k : List Char) (m : List (List Char × List ℚ)) :
    mapLookup k m = none ↔ ∀ kv ∈ m, kv.1 ≠ k := by
  induction m with
  | nil => simp [mapLookup]
  | cons kv rest ih =>
    by_cases hk : kv.1 = k
    · simp [mapLookup, hk, List.forall_mem_cons]
    · simp [mapLookup, hk, List.forall_mem_cons, ih]

theorem mem_mapErase (k : List Char) (m : List (List Char × List ℚ)) :
    ∀ kv ∈ mapErase k m, kv ∈ m := by
  induction m with
  | nil => simp [mapErase]
  | cons kv0 rest ih =>
    intro kv hkv
    by_cases hk : kv0.1 = k
    · simp only [mapErase, if_pos hk] at hkv
      exact List.mem_cons_of_mem _ hkv
    · simp only [mapErase, if_neg hk, List.mem_cons] at hkv
      cases hkv with
      | inl h => exact h ▸ List.mem_cons_self _ _
      | inr h => exact List.mem_cons_of_mem _ (ih kv h)

theorem mapLookup_none_mapErase (j k : List Char) (m : List (List Char × List ℚ))
    (h : mapLookup j m = none) : mapLookup j (mapErase k m) = none := by
  rw [mapLookup_eq_none_iff] at h ⊢
  exact fun kv hkv => h kv (mem_mapErase k m kv hkv)

theorem mapLookup_mapErase_self (k : List Char) (m : List (List Char × List ℚ))
    (hnd : (m.map (fun kv => kv.1)).Nodup) : mapLookup k (mapErase k m) = none := by
  induction m with
  | nil => rfl
  | cons kv0 rest ih =>
    rw [List.map_cons, List.nodup_cons] at hnd
    by_cases hk : kv0.1 = k
    · rw [mapErase, if_pos hk, mapLookup_eq_none_iff]
      intro kv hkv hkk
      apply hnd.1
      rw [hk, ← hkk]
      exact List.mem_map_of_mem _ hkv
    · rw [mapErase, if_neg hk, mapLookup, if_neg hk]
      exact ih hnd.2

theorem foldl_erase_preserves_none (ids : List (List Char)) :
    ∀ m : List (List Char × List ℚ), ∀ id : List Char, mapLookup id m = none →
      mapLookup id (ids.foldl (fun acc k => mapErase k acc) m) = none := by
  induction ids with
  | nil => intro m id h; exact h
  | cons k ids ih =>
    intro m id h
    rw [List.foldl_cons]
    exact ih (mapErase k m) id (mapLookup_none_mapErase id k m h)

theorem mapErase_keys_sublist (k : List Char) (m : List (List Char × List ℚ)) :
    List.Sublist ((mapErase k m).map (fun kv => kv.1)) (m.map (fun kv => kv.1)) := by
  induction m with
  | nil => simp [mapErase]
  | cons kv0 rest ih =>
    by_cases hk : kv0.1 = k
    · rw [mapErase, if_pos hk, List.map_cons]
      exact (List.Sublist.refl _).cons _
    · rw [mapErase, if_neg hk, List.map_cons, List.map_cons]
      exact ih.cons₂ _

theorem mapLookup_foldl_erase (ids : List (List Char)) :
    ∀ m : List (List Char × List ℚ), ∀ id : List Char,
      (m.map (fun kv => kv.1)).Nodup → id ∈ ids →
      mapLookup id (ids.foldl (fun acc k => mapErase k acc) m) = none := by
  induction ids with
  | nil => intro m id _ h; cases h
  | cons k ids ih =>
    intro m id hnd hmem
    rw [List.foldl_cons]
    rcases List.mem_cons.mp hmem with rfl | hmem2
    · exact foldl_erase_preserves_none ids (mapErase id m) id
        (mapLookup_mapErase_self id m hnd)
    · exact ih (mapErase k m) id ((mapErase_keys_sublist k m).nodup hnd) hmem2

theorem updateFirst_absent (id : List Char) (v : ℚ) :
    ∀ ds : List DownloadTask, (∀ t ∈ ds, t.video_id ≠ id) →
      updateFirst id v ds = ds := by
  intro ds
  induction ds with
  | nil => intro _; rfl
  | cons t ts ih =>
    intro h
    rw [updateFirst, if_neg (h t (List.mem_cons_self t ts)),
      ih (fun u hu => h u (List.mem_cons_of_mem t hu))]

/-- Claim C6: after `remove`, no task with a removed id is left in the
registry (`list()` never shows it), the id's channel binding is gone from
the receiver map, and a progress value addressed to the removed id is
discarded without effect or error.  `hkeys` is the key-uniqueness invariant
of the Rust `HashMap` the receiver map embeds. -/
theorem remove_then_absent (st : MyApp) (ids : List (List Char)) (id : List Char)
    (hid : id ∈ ids)
    (hkeys : ((st.progress_rxs.map (fun kv => kv.1)).Nodup)) (v : ℚ) :
    (∀ t ∈ (removeTasks ids st).downloads, t.video_id ≠ id)
    ∧ mapLookup id (removeTasks ids st).progress_rxs = none
    ∧ updateFirst id v (removeTasks ids st).downloads
        = (removeTasks ids st).downloads := by
  have hne : ¬ (ids.isEmpty = true) := by
    cases ids with
    | nil => cases hid
    | cons x xs => simp [List.isEmpty]
  have habs : ∀ t ∈ (removeTasks ids st).downloads, t.video_id ≠ id := by
    intro t ht heq
    rw [removeTasks, if_neg hne] at ht
    have h2 := (List.mem_filter.mp ht).2
    simp only [Bool.not_eq_true', decide_eq_false_iff_not] at h2
    exact h2 (heq ▸ hid)
  refine ⟨habs, ?_, updateFirst_absent id v _ habs⟩
  rw [removeTasks, if_neg hne]
  exact mapLookup_foldl_erase ids st.progress_rxs id hkeys hid

theorem remove_then_absent_witness :
    mapLookup ("abc".toList)
      (removeTasks [("abc".toList)]
        { url_input := []
        , downloads := [{ title := ("T".toList), video_id := ("abc".toList),
                          status := DownloadStatus.Done, progress := 1 }]
        , progress_rxs := [(("abc".toList), [(1 : ℚ)/2])]
        , spawned_downloads := [("abc".toList)]
        , spawned_thumbnails := [("abc".toList)] }).progress_rxs = none :=
  (remove_then_absent _ _ _ (by decide) (by decide) 0).2.1

/-! ## Ignored submissions (C10) -/

theorem hasPre_exists (p : List Char) :
    ∀ s, hasPre p s = true → ∃ r, s = p ++ r := by
  induction p with
  | nil => intro s _; exact ⟨s, rfl⟩
  | cons c cs ih =>
    intro s h
    cases s with
    | nil => simp [hasPre] at h
    | cons d ds =>
      simp only [hasPre, Bool.and_eq_true, decide_eq_true_eq] at h
      obtain ⟨r, hr⟩ := ih ds h.2
      exact ⟨r, by rw [h.1, hr]; rfl⟩

theorem findSub_decomp (pat : List Char) :
    ∀ s i, findSub pat s = some i → ∃ a b, s = a ++ pat ++ b := by
  intro s
  induction s with
  | nil =>
    intro i h
    rw [findSub] at h
    split at h
    · obtain ⟨r, hr⟩ := hasPre_exists pat [] (by assumption)
      exact ⟨[], r, by simpa using hr⟩
    · cases h
  | cons c cs ih =>
    intro i h
    rw [findSub] at h
    split at h
    · obtain ⟨r, hr⟩ := hasPre_exists pat (c :: cs) (by assumption)
      exact ⟨[], r, by simpa using hr⟩
    · rcases Option.map_eq_some'.mp h with ⟨j, hj, _⟩
      obtain ⟨a, b, hb⟩ := ih j hj
      exact ⟨c :: a, b, by simp [hb, List.append_assoc]⟩

theorem trimLeft_decomp (s : List Char) :
    ∃ w, (∀ c ∈ w, isSpaceChar c = true) ∧ s = w ++ trimLeft s :=
  ⟨s.takeWhile isSpaceChar, fun _ hc => List.mem_takeWhile_imp hc,
   (List.takeWhile_append_dropWhile isSpaceChar s).symm⟩

theorem trimRight_decomp (s : List Char) :
    ∃ w, (∀ c ∈ w, isSpaceChar c = true) ∧ s = trimRight s ++ w := by
  refine ⟨(s.reverse.takeWhile isSpaceChar).reverse, ?_, ?_⟩
  · intro c hc
    rw [List.mem_reverse] at hc
    exact List.mem_takeWhile_imp hc
  · have h := List.takeWhile_append_dropWhile (p := isSpaceChar) (l := s.reverse)
    calc s = s.reverse.reverse := (List.reverse_reverse s).symm
    _ = (s.reverse.takeWhile isSpaceChar ++ s.reverse.dropWhile isSpaceChar).reverse := by
          rw [h]
    _ = trimRight s ++ (s.reverse.takeWhile isSpaceChar).reverse := by
          rw [List.reverse_append]; rfl

theorem rustTrim_decomp (s : List Char) :
    ∃ w1 w2, (∀ c ∈ w1, isSpaceChar c = true) ∧ (∀ c ∈ w2, isSpaceChar c = true)
      ∧ s = w1 ++ rustTrim s ++ w2 := by
  obtain ⟨w1, hw1, h1⟩ := trimLeft_decomp s
  obtain ⟨w2, hw2, h2⟩ := trimRight_decomp (trimLeft s)
  refine ⟨w1, w2, hw1, hw2, ?_⟩
  nth_rewrite 1 [h1]
  rw [h2]
  simp [rustTrim]

/-- Claim C10: a submission whose URL nowhere contains the substring `v=`
is ignored — id extraction returns `none`, and the click handler only
clears the input field: no task is inserted, no channel is created, and no
download or thumbnail work is spawned. -/
theorem missing_vid_ignored (st : MyApp)
    (h : ∀ a b : List Char, st.url_input ≠ a ++ ('v' :: '=' :: b)) :
    extract_video_id (rustTrim st.url_input) = none
    ∧ submit st = { st with url_input := [] } := by
  have hnone : findSub (['v', '=']) (rustTrim st.url_input) = none := by
    cases hF : findSub (['v', '=']) (rustTrim st.url_input) with
    | none => rfl
    | some i =>
      exfalso
      obtain ⟨a, b, hab⟩ := findSub_decomp _ _ i hF
      obtain ⟨w1, w2, _, _, hs⟩ := rustTrim_decomp st.url_input
      apply h (w1 ++ a) (b ++ w2)
      nth_rewrite 1 [hs]
      rw [hab]
      simp [List.append_assoc]
  have hE : extract_video_id (rustTrim st.url_input) = none := by
    rw [extract_video_id, hnone]
  exact ⟨hE, by rw [submit, hE]⟩

theorem missing_vid_ignored_witness :
    submit { url_input := ("hello".toList), downloads := [], progress_rxs := [],
             spawned_downloads := [], spawned_thumbnails := [] }
      = { url_input := [], downloads := [], progress_rxs := [],
          spawned_downloads := [], spawned_thumbnails := [] } :=
  (missing_vid_ignored
    { url_input := ("hello".toList), downloads := [], progress_rxs := [],
      spawned_downloads := [], spawned_thumbnails := [] }
    (fun a b hab => by
      have hab2 : ("hello".toList : List Char) = a ++ ('v' :: '=' :: b) := hab
      have hv : 'v' ∈ ("hello".toList) := by rw [hab2]; simp
      exact absurd hv (by decide))).2

/-! ## Executable materialization (C8) -/

/-- Claim C8 counterexample: under the interleaving check-A, check-B,
write-A, write-B both invocations observe the binary absent and both
perform the write — the second invocation does a redundant write that can
race with the first invocation's use of the file. -/
theorem ensure_race_cex :
    (runSched initTwoProc [true, false, true, false]).fs.writeCount = 2 := by decide

/-- Claim C8 (amended): run without interleaving the step is idempotent —
it always leaves the binary present, a second sequential invocation is a
no-op (performs no write), and the fully sequential two-invocation
schedule performs exactly one write. -/
theorem ensure_seq_idempotent (fs : FsState) :
    (ensureRun fs).binPresent = true
    ∧ ensureRun (ensureRun fs) = ensureRun fs
    ∧ (runSched initTwoProc [true, true, false, false]).fs.writeCount = 1 := by
  refine ⟨?_, ?_, by decide⟩
  · cases h : fs.binPresent <;> simp [ensureRun, ensureStep, h]
  · cases h : fs.binPresent <;> simp [ensureRun, ensureStep, h]

/-! ## Parser characterization (C3) -/

theorem stripPre_eq_some (p : List Char) :
    ∀ s r, stripPre p s = some r ↔ s = p ++ r := by
  induction p with
  | nil => intro s r; simp [stripPre]
  | cons c cs ih =>
    intro s r
    cases s with
    | nil => simp [stripPre]
    | cons d ds =>
      by_cases hd : d = c
      · simp [stripPre, hd, ih]
      · simp [stripPre, hd]

theorem stripSuffChar_eq_some (ch : Char) (s r : List Char) :
    stripSuffChar ch s = some r ↔ s = r ++ [ch] := by
  rw [stripSuffChar]
  cases hrev : s.reverse with
  | nil =>
    have hs : s = [] := by simpa using congrArg List.reverse hrev
    simp [hs]
  | cons c rest =>
    have hs : s = rest.reverse ++ [c] := by
      have h2 := congrArg List.reverse hrev
      simpa using h2
    show (if c = ch then some rest.reverse else none) = some r ↔ s = r ++ [ch]
    by_cases hc : c = ch
    · subst hc
      rw [if_pos rfl, hs]
      simp [List.append_left_inj]
    · rw [if_neg hc, hs]
      constructor
      · intro h; cases h
      · intro heq
        have h2 := congrArg List.reverse heq
        simp at h2
        exact absurd h2.1 hc

theorem dropWhile_append_of_all (p : Char → Bool) (w s : List Char)
    (hw : ∀ c ∈ w, p c = true) : (w ++ s).dropWhile p = s.dropWhile p := by
  induction w with
  | nil => rfl
  | cons c cs ih =>
    rw [List.cons_append, List.dropWhile_cons_of_pos (hw c (List.mem_cons_self c cs))]
    exact ih (fun u hu => hw u (List.mem_cons_of_mem c hu))

theorem trimLeft_space_append (w s : List Char)
    (hw : ∀ c ∈ w, isSpaceChar c = true) : trimLeft (w ++ s) = trimLeft s :=
  dropWhile_append_of_all isSpaceChar w s hw

theorem trimLeft_cons_not (c : Char) (s : List Char) (h : isSpaceChar c = false) :
    trimLeft (c :: s) = c :: s := by
  rw [trimLeft, List.dropWhile_cons_of_neg]
  simp [h]

theorem trimRight_append_space (s w : List Char)
    (hw : ∀ c ∈ w, isSpaceChar c = true) : trimRight (s ++ w) = trimRight s := by
  rw [trimRight, trimRight, List.reverse_append,
    dropWhile_append_of_all isSpaceChar w.reverse s.reverse
      (fun c hc => hw c (List.mem_reverse.mp hc))]

theorem trimRight_concat_not (s : List Char) (c : Char) (h : isSpaceChar c = false) :
    trimRight (s ++ [c]) = s ++ [c] := by
  rw [trimRight, List.reverse_append]
  simp only [List.reverse_cons, List.reverse_nil, List.nil_append, List.singleton_append]
  rw [List.dropWhile_cons_of_neg (by simp [h])]
  simp

theorem dropWhile_nil_all (p : Char → Bool) (s : List Char)
    (h : s.dropWhile p = []) : ∀ c ∈ s, p c = true := by
  intro c hc
  have h2 := List.takeWhile_append_dropWhile p s
  rw [h, List.append_nil] at h2
  rw [← h2] at hc
  exact List.mem_takeWhile_imp hc

theorem isDigit_not_space (c : Char) (h : c.isDigit = true) : isSpaceChar c = false := by
  rcases eq_or_ne c ' ' with rfl | h1
  · exact absurd h (by decide)
  rcases eq_or_ne c '\t' with rfl | h2
  · exact absurd h (by decide)
  rcases eq_or_ne c '\n' with rfl | h3
  · exact absurd h (by decide)
  rcases eq_or_ne c '\r' with rfl | h4
  · exact absurd h (by decide)
  simp [isSpaceChar, h1, h2, h3, h4]

theorem parseExpDigits_chars (q : ℚ) (s : List Char)
    (h : parseExpDigits s = some q) : ∀ c ∈ s, isSpaceChar c = false := by
  rw [parseExpDigits] at h
  by_cases h1 : s.takeWhile Char.isDigit = []
  · rw [if_pos h1] at h; cases h
  · rw [if_neg h1] at h
    by_cases h2 : s.dropWhile Char.isDigit = []
    · intro c hc
      exact isDigit_not_space c (dropWhile_nil_all Char.isDigit s h2 c hc)
    · rw [if_neg h2] at h; cases h

theorem parseExpPart_chars (q : ℚ) :
    ∀ s, parseExpPart s = some q → ∀ c ∈ s, isSpaceChar c = false := by
  intro s
  cases s with
  | nil => intro h; cases h
  | cons c0 r =>
    intro h c hc
    rw [parseExpPart] at h
    by_cases h1 : c0 = '+'
    · rw [if_pos h1] at h
      rcases List.mem_cons.mp hc with rfl | hcr
      · rw [h1]; decide
      · exact parseExpDigits_chars q r h c hcr
    · rw [if_neg h1] at h
      by_cases h2 : c0 = '-'
      · rw [if_pos h2] at h
        rcases Option.map_eq_some'.mp h with ⟨e, he, _⟩
        rcases List.mem_cons.mp hc with rfl | hcr
        · rw [h2]; decide
        · exact parseExpDigits_chars e r he c hcr
      · rw [if_neg h2] at h
        exact parseExpDigits_chars q (c0 :: r) h c hc

theorem parseAfterFrac_chars (m q : ℚ) :
    ∀ s, parseAfterFrac m s = some q → ∀ c ∈ s, isSpaceChar c = false := by
  intro s
  cases s with
  | nil => intro _ c hc; cases hc
  | cons c0 s5 =>
    intro h c hc
    rw [parseAfterFrac] at h
    by_cases h1 : c0 = 'e' ∨ c0 = 'E'
    · rw [if_pos h1] at h
      rcases Option.map_eq_some'.mp h with ⟨e, he, _⟩
      rcases List.mem_cons.mp hc with rfl | hc5
      · rcases h1 with rfl | rfl
        · decide
        · decide
      · exact parseExpPart_chars e s5 he c hc5
    · rw [if_neg h1] at h; cases h

theorem parseAfterInt_chars (ipE : Bool) (ipV q : ℚ) :
    ∀ s, parseAfterInt ipE ipV s = some q → ∀ c ∈ s, isSpaceChar c = false := by
  intro s
  cases s with
  | nil => intro _ c hc; cases hc
  | cons c0 s3 =>
    intro h c hc
    rw [parseAfterInt] at h
    by_cases h0 : c0 = '.'
    · rw [if_pos h0] at h
      by_cases h1 : ipE = true ∧ s3.takeWhile Char.isDigit = []
      · rw [if_pos h1] at h; cases h
      · rw [if_neg h1] at h
        rcases List.mem_cons.mp hc with rfl | hc3
        · rw [h0]; decide
        · rw [← List.takeWhile_append_dropWhile Char.isDigit s3] at hc3
          rcases List.mem_append.mp hc3 with hm | hm
          · exact isDigit_not_space c (List.mem_takeWhile_imp hm)
          · exact parseAfterFrac_chars _ q _ h c hm
    · rw [if_neg h0] at h
      by_cases h1 : (c0 = 'e' ∨ c0 = 'E') ∧ ipE = false
      · rw [if_pos h1] at h
        rcases Option.map_eq_some'.mp h with ⟨e, he, _⟩
        rcases List.mem_cons.mp hc with rfl | hc3
        · rcases h1.1 with rfl | rfl
          · decide
          · decide
        · exact parseExpPart_chars e s3 he c hc3
      · rw [if_neg h1] at h; cases h

theorem parseUnsigned_chars (s : List Char) (q : ℚ)
    (h : parseUnsigned s = some q) : ∀ c ∈ s, isSpaceChar c = false := by
  intro c hc
  rw [parseUnsigned] at h
  rw [← List.takeWhile_append_dropWhile Char.isDigit s] at hc
  rcases List.mem_append.mp hc with hm | hm
  · exact isDigit_not_space c (List.mem_takeWhile_imp hm)
  · exact parseAfterInt_chars _ _ q _ h c hm

theorem parseF32_chars (s : List Char) (q : ℚ) (h : parseF32 s = some q) :
    s ≠ [] ∧ ∀ c ∈ s, isSpaceChar c = false := by
  cases s with
  | nil => simp [parseF32] at h
  | cons c0 r =>
    refine ⟨List.cons_ne_nil c0 r, ?_⟩
    rw [parseF32] at h
    intro c hc
    by_cases h1 : c0 = '+'
    · rw [if_pos h1] at h
      rcases List.mem_cons.mp hc with rfl | hcr
      · rw [h1]; decide
      · exact parseUnsigned_chars r q h c hcr
    · rw [if_neg h1] at h
      by_cases h2 : c0 = '-'
      · rw [if_pos h2] at h
        rcases Option.map_eq_some'.mp h with ⟨u, hu, _⟩
        rcases List.mem_cons.mp hc with rfl | hcr
        · rw [h2]; decide
        · exact parseUnsigned_chars r u hu c hcr
      · rw [if_neg h2] at h
        exact parseUnsigned_chars (c0 :: r) q h c hc

theorem parse_progress_inv (l : List Char) (x : ℚ)
    (h : Progress.parse_progress_from_line l = some x) :
    ∃ rest number q, stripPre ("downloaded_bytes:".toList) l = some rest
      ∧ stripSuffChar '%' (rustTrim rest) = some number
      ∧ parseF32 (rustTrim number) = some q ∧ x = q / 100 := by
  cases hP : stripPre ("downloaded_bytes:".toList) l with
  | none =>
    rw [show Progress.parse_progress_from_line l = none from by
      simp only [Progress.parse_progress_from_line, hP]] at h
    cases h
  | some rest =>
    cases hS : stripSuffChar '%' (rustTrim rest) with
    | none =>
      rw [show Progress.parse_progress_from_line l = none from by
        simp only [Progress.parse_progress_from_line, hP, hS]] at h
      cases h
    | some number =>
      cases hF : parseF32 (rustTrim number) with
      | none =>
        rw [show Progress.parse_progress_from_line l = none from by
          simp only [Progress.parse_progress_from_line, hP, hS, hF]] at h
        cases h
      | some q =>
        rw [show Progress.parse_progress_from_line l = some (q / 100) from by
          simp only [Progress.parse_progress_from_line, hP, hS, hF]] at h
        exact ⟨rest, number, q, rfl, hS, hF, (Option.some.inj h).symm⟩

theorem parse_progress_eval (l rest number : List Char) (q : ℚ)
    (h1 : stripPre ("downloaded_bytes:".toList) l = some rest)
    (h2 : stripSuffChar '%' (rustTrim rest) = some number)
    (h3 : parseF32 (rustTrim number) = some q) :
    Progress.parse_progress_from_line l = some (q / 100) := by
  simp only [Progress.parse_progress_from_line, h1, h2, h3]

/-- Claim C3: the parser succeeds exactly on lines of the shape
`downloaded_bytes:` + whitespace + number + whitespace + `%` + whitespace,
returning the parsed number divided by 100 with no clamping, and `None`
otherwise; with the spec's three examples, and the out-of-range
passthrough (`120%` parses to `1.2`, above `1`).  Numbers are the finite
decimal literals of `str::parse::<f32>` kept as exact rationals. -/
theorem parse_progress_spec :
    (∀ (l : List Char) (x : ℚ),
      Progress.parse_progress_from_line l = some x ↔
        ∃ w1 num w2 w3 q,
          (∀ c ∈ w1, isSpaceChar c = true) ∧ (∀ c ∈ w2, isSpaceChar c = true)
          ∧ (∀ c ∈ w3, isSpaceChar c = true)
          ∧ parseF32 num = some q
          ∧ l = ("downloaded_bytes:".toList) ++ w1 ++ num ++ w2 ++ ['%'] ++ w3
          ∧ x = q / 100)
    ∧ Progress.parse_progress_from_line ("downloaded_bytes:  62.0%".toList)
        = some (62 / 100)
    ∧ Progress.parse_progress_from_line ("some other text".toList) = none
    ∧ Progress.parse_progress_from_line ("downloaded_bytes:abc%".toList) = none
    ∧ Progress.parse_progress_from_line ("downloaded_bytes:120%".toList)
        = some (120 / 100)
    ∧ (1 : ℚ) < 120 / 100 := by
  refine ⟨?_, by with_unfolding_all decide, by decide, by decide,
    by with_unfolding_all decide, by with_unfolding_all decide⟩
  intro l x
  constructor
  · intro h
    obtain ⟨rest, number, q, hP, hS, hF, hx⟩ := parse_progress_inv l x h
    obtain ⟨wa, wb, hwa, hwb, hrest⟩ := rustTrim_decomp rest
    obtain ⟨wl, wr, hwl, hwr, hnum⟩ := rustTrim_decomp number
    rw [stripPre_eq_some] at hP
    rw [stripSuffChar_eq_some] at hS
    refine ⟨wa ++ wl, rustTrim number, wr, wb, q, ?_, hwr, hwb, hF, ?_, hx⟩
    · intro c hc
      rcases List.mem_append.mp hc with hm | hm
      · exact hwa c hm
      · exact hwl c hm
    · rw [hP]
      nth_rewrite 1 [hrest]
      rw [hS]
      nth_rewrite 1 [hnum]
      simp [List.append_assoc]
  · rintro ⟨w1, num, w2, w3, q, hw1, hw2, hw3, hq, hl, hx⟩
    obtain ⟨hne, hchars⟩ := parseF32_chars num q hq
    obtain ⟨c0, nt, hc0⟩ := List.exists_cons_of_ne_nil hne
    have hc0n : isSpaceChar c0 = false :=
      hchars c0 (by rw [hc0]; exact List.mem_cons_self _ _)
    rcases List.eq_nil_or_concat num with hnil | ⟨nt2, cl, hcl⟩
    · exact absurd hnil hne
    have hcln : isSpaceChar cl = false := hchars cl (by rw [hcl]; simp)
    have hP : stripPre ("downloaded_bytes:".toList) l
        = some (w1 ++ (num ++ (w2 ++ (['%'] ++ w3)))) :=
      (stripPre_eq_some _ _ _).mpr (by rw [hl]; simp [List.append_assoc])
    have hTL : trimLeft (w1 ++ (num ++ (w2 ++ (['%'] ++ w3))))
        = num ++ (w2 ++ (['%'] ++ w3)) := by
      rw [trimLeft_space_append w1 _ hw1, hc0, List.cons_append,
        trimLeft_cons_not _ _ hc0n]
    have hTR : trimRight (num ++ (w2 ++ (['%'] ++ w3))) = (num ++ w2) ++ ['%'] := by
      have e1 : num ++ (w2 ++ (['%'] ++ w3)) = ((num ++ w2) ++ ['%']) ++ w3 := by
        simp [List.append_assoc]
      rw [e1, trimRight_append_space _ _ hw3, trimRight_concat_not _ _ (by decide)]
    have hT : rustTrim (w1 ++ (num ++ (w2 ++ (['%'] ++ w3)))) = (num ++ w2) ++ ['%'] := by
      rw [rustTrim, hTL, hTR]
    have hS : stripSuffChar '%' ((num ++ w2) ++ ['%']) = some (num ++ w2) :=
      (stripSuffChar_eq_some '%' _ _).mpr rfl
    have hTL2 : trimLeft (num ++ w2) = num ++ w2 := by
      rw [hc0, List.cons_append]
      exact trimLeft_cons_not _ _ hc0n
    have hTR2 : trimRight (num ++ w2) = num := by
      rw [trimRight_append_space _ _ hw2, hcl, List.concat_eq_append,
        trimRight_concat_not _ _ hcln]
    have hT2 : rustTrim (num ++ w2) = num := by rw [rustTrim, hTL2, hTR2]
    rw [hx]
    exact parse_progress_eval l _ _ q hP (by rw [hT]; exact hS)
      (by rw [hT2]; exact hq)

theorem parse_progress_spec_witness :
    Progress.parse_progress_from_line
        (("downloaded_bytes:".toList) ++ [' '] ++ ("62.0".toList) ++ [] ++ ['%'] ++ [])
      = some (62 / 100) :=
  (parse_progress_spec.1 _ _).mpr
    ⟨[' '], ("62.0".toList), [], [], 62,
      by decide, by decide, by decide, by with_unfolding_all decide, rfl,
      by with_unfolding_all decide⟩

end Exam
